import Mathlib

/-!
Verification of the moving-average crossover trading strategy repository.

The development embeds the computational core of the repository:

* `strategy.py` — `calculate_moving_averages` (pandas trailing rolling means)
  and `generate_signals` (golden/death-cross detection over consecutive rows
  where both moving averages are defined);
* `backtest.py` — `Backtest.run_backtest` (the sequential portfolio
  simulator) and `Backtest._calculate_performance_metrics` (summary
  statistics);
* `config.py` — `validate_config` (the only window validation in the
  repository).

Prices and monetary amounts are modelled as rationals; share counts as
naturals; pandas `NaN` cells are modelled with `Option`.  Divisions performed
by the metrics code without a zero-guard are modelled in an `Except` monad so
that a zero denominator is observable.
-/

namespace Trading

/-- `df[price].rolling(window=w).mean()` at row `i`: the arithmetic mean of
the trailing `w` prices ending at `i`, `none` (pandas `NaN`) while fewer than
`w` observations are available.  From `strategy.py`,
`calculate_moving_averages`. -/
def rollingMean (w : ℕ) (ps : List ℚ) (i : ℕ) : Option ℚ :=
  if 0 < w ∧ w ≤ i + 1 ∧ i < ps.length then
    some (((ps.drop (i + 1 - w)).take w).sum / (w : ℚ))
  else none

/-- `calculate_moving_averages` from `strategy.py`: the two added MA columns
(short window, long window), one `Option` cell per input row.  The source
performs no window validation whatsoever. -/
def calculate_moving_averages (ps : List ℚ) (shortWindow longWindow : ℕ) :
    List (Option ℚ) × List (Option ℚ) :=
  ((List.range ps.length).map (rollingMean shortWindow ps),
   (List.range ps.length).map (rollingMean longWindow ps))

/-- Row `i` survives `df.dropna(subset=[short_ma_col, long_ma_col])`:
both moving averages are defined there. -/
def bothDefined (s l : ℕ) (ps : List ℚ) (i : ℕ) : Bool :=
  (rollingMean s ps i).isSome && (rollingMean l ps i).isSome

/-- The row of `valid_data` immediately preceding row `i`: the largest
`j < i` satisfying `f`. -/
def prevValid (f : ℕ → Bool) : ℕ → Option ℕ
  | 0 => none
  | j + 1 => if f j then some j else prevValid f j

/-- The `Signal` column value assigned at row `i` by `generate_signals` in
`strategy.py` (`1` = Buy, `-1` = Sell, `0` = Hold): rows where both MAs are
defined are paired with the previous such row, a golden cross
(`prev_short <= prev_long and current_short > current_long`) emits `1`, a
death cross (`prev_short >= prev_long and current_short < current_long`)
emits `-1`, every other row keeps the initial `0`. -/
def crossSignal (s l : ℕ) (ps : List ℚ) (i : ℕ) : ℤ :=
  if bothDefined s l ps i then
    match prevValid (bothDefined s l ps) i with
    | none => 0
    | some j =>
      let currShort := (rollingMean s ps i).getD 0
      let currLong := (rollingMean l ps i).getD 0
      let prevShort := (rollingMean s ps j).getD 0
      let prevLong := (rollingMean l ps j).getD 0
      if prevShort ≤ prevLong ∧ currLong < currShort then 1
      else if prevLong ≤ prevShort ∧ currShort < currLong then -1
      else 0
  else 0

/-- The validation failures reported by `validate_config` in `config.py`. -/
inductive ConfigError where
  | shortNotLessThanLong
  | capitalNotPositive
  | commissionOutOfRange
deriving DecidableEq

/-- The `errors` list built by `validate_config` in `config.py`. -/
def validateConfigErrors (shortMA longMA : ℤ) (capital commission : ℚ) :
    List ConfigError :=
  (if longMA ≤ shortMA then [ConfigError.shortNotLessThanLong] else []) ++
  (if capital ≤ 0 then [ConfigError.capitalNotPositive] else []) ++
  (if commission < 0 ∨ (1 / 10 : ℚ) < commission then
      [ConfigError.commissionOutOfRange]
    else [])

/-- `validate_config` from `config.py`: prints the errors and returns
whether the configuration is valid (`errors` empty). -/
def validate_config (shortMA longMA : ℤ) (capital commission : ℚ) : Bool :=
  (validateConfigErrors shortMA longMA capital commission).isEmpty

/-- Truncation toward zero, the semantics of Python `int()` applied to a
number, used by `shares_to_buy = int(available_cash / price)`. -/
def pyInt (q : ℚ) : ℤ :=
  if 0 ≤ q then ⌊q⌋ else ⌈q⌉

/-- Trade actions recorded in the trade log of `backtest.py`. -/
inductive Action where
  | buy
  | sell
deriving DecidableEq, Inhabited

/-- One entry of `trade_log` in `Backtest.run_backtest`.  `idx` stands for
the `Date` key (the row position in the chronologically ordered frame);
`amount` is the `Cost` key of a Buy record and the `Proceeds` key of a Sell
record. -/
structure Trade where
  idx : ℕ
  action : Action
  shares : ℕ
  price : ℚ
  amount : ℚ
  commission : ℚ
  cashAfter : ℚ
  sharesAfter : ℕ
deriving DecidableEq, Inhabited

/-- One entry of `portfolio_values` in `Backtest.run_backtest`. -/
structure Snapshot where
  idx : ℕ
  cash : ℚ
  shares : ℕ
  price : ℚ
  portfolioValue : ℚ
deriving DecidableEq, Inhabited

/-- One row of the frame consumed by `run_backtest`: the price column, the
`Signal` column, and the `Position` column (present in the frame produced by
`generate_signals` but never read by the simulator). -/
structure Row where
  price : ℚ
  signal : ℤ
  position : ℤ
deriving DecidableEq, Inhabited

/-- The simulator state carried through the loop of `run_backtest`: `cash`,
`shares`, and the two grown lists `trade_log` and `portfolio_values`. -/
structure BTState where
  cash : ℚ
  shares : ℕ
  trades : List Trade
  snaps : List Snapshot
deriving DecidableEq, Inhabited

/-- One iteration of the loop in `Backtest.run_backtest` (lines 68–122 of
`backtest.py`) at row position `i`, with commission rate `r`. -/
def btStep (r : ℚ) (st : BTState) (i : ℕ) (row : Row) : BTState :=
  let price := row.price
  if row.signal = 1 ∧ st.shares = 0 then
    let commissionCost := st.cash * r
    let availableCash := st.cash - commissionCost
    let sharesToBuy := pyInt (availableCash / price)
    if 0 < sharesToBuy then
      let cost := (sharesToBuy : ℚ) * price
      let cash := st.cash - (cost + commissionCost)
      let shares := st.shares + sharesToBuy.toNat
      { cash := cash, shares := shares,
        trades := st.trades ++
          [{ idx := i, action := Action.buy, shares := sharesToBuy.toNat,
             price := price, amount := cost, commission := commissionCost,
             cashAfter := cash, sharesAfter := shares }],
        snaps := st.snaps ++
          [{ idx := i, cash := cash, shares := shares, price := price,
             portfolioValue := cash + (shares : ℚ) * price }] }
    else
      { st with snaps := st.snaps ++
          [{ idx := i, cash := st.cash, shares := st.shares, price := price,
             portfolioValue := st.cash + (st.shares : ℚ) * price }] }
  else if row.signal = -1 ∧ 0 < st.shares then
    let proceeds := (st.shares : ℚ) * price
    let commissionCost := proceeds * r
    let cash := st.cash + (proceeds - commissionCost)
    { cash := cash, shares := 0,
      trades := st.trades ++
        [{ idx := i, action := Action.sell, shares := st.shares,
           price := price, amount := proceeds, commission := commissionCost,
           cashAfter := cash, sharesAfter := 0 }],
      snaps := st.snaps ++
        [{ idx := i, cash := cash, shares := 0, price := price,
           portfolioValue := cash + (0 : ℚ) * price }] }
  else
    { st with snaps := st.snaps ++
        [{ idx := i, cash := st.cash, shares := st.shares, price := price,
           portfolioValue := st.cash + (st.shares : ℚ) * price }] }

/-- The loop of `run_backtest`, with `i` the position of the first row of
the remaining list. -/
def btRunAux (r : ℚ) : BTState → ℕ → List Row → BTState
  | st, _, [] => st
  | st, i, row :: rest => btRunAux r (btStep r st i row) (i + 1) rest

/-- The state before the loop starts: `cash = self.initial_capital`,
`shares = 0`, both logs empty. -/
def initState (capital : ℚ) : BTState :=
  { cash := capital, shares := 0, trades := [], snaps := [] }

/-- `Backtest.run_backtest`: the final simulator state (cash, shares, trade
log, snapshot list) after folding the whole frame. -/
def btRun (capital r : ℚ) (rows : List Row) : BTState :=
  btRunAux r (initState capital) 0 rows

/-- The simulator state after the first `n` periods have been processed. -/
def btStateAt (capital r : ℚ) (rows : List Row) (n : ℕ) : BTState :=
  btRun capital r (rows.take n)

/-- Errors observable while evaluating `_calculate_performance_metrics` in
exact arithmetic: a division whose denominator is zero and is not protected
by any zero-check in the source, or an out-of-range positional lookup
(`iloc`). -/
inductive MErr where
  | divByZero
  | indexError
deriving DecidableEq

/-- Division as performed by the metrics code with no zero-guard: a zero
denominator is flagged. -/
def divE (a b : ℚ) : Except MErr ℚ :=
  if b = 0 then Except.error MErr.divByZero else Except.ok (a / b)

/-- `iloc` access: `none` is an out-of-range positional lookup. -/
def ilocE (q : Option ℚ) : Except MErr ℚ :=
  match q with
  | none => Except.error MErr.indexError
  | some v => Except.ok v

/-- `Series.pct_change()` with the leading `NaN` dropped (pandas `std`
skips it): the list `v i / v (i-1) - 1` over consecutive values. -/
def pctChange : List ℚ → Except MErr (List ℚ)
  | [] => Except.ok []
  | [_] => Except.ok []
  | a :: b :: rest =>
    match divE b a with
    | Except.error e => Except.error e
    | Except.ok q =>
      match pctChange (b :: rest) with
      | Except.error e => Except.error e
      | Except.ok l => Except.ok ((q - 1) :: l)

/-- `Series.std()` (sample standard deviation, `ddof = 1`), squared to stay
rational: `none` models the `NaN` pandas returns on fewer than two
observations. -/
def sampleVariance (xs : List ℚ) : Option ℚ :=
  if xs.length < 2 then none
  else
    some ((xs.map fun x => (x - xs.sum / (xs.length : ℚ)) ^ 2).sum /
      ((xs.length : ℚ) - 1))

/-- `Series.expanding().max()`: running maxima, seeded with the head. -/
def expMaxAux (m : ℚ) : List ℚ → List ℚ
  | [] => []
  | v :: rest => max m v :: expMaxAux (max m v) rest

/-- The `Peak` column of the metrics code. -/
def expandingMax (vs : List ℚ) : List ℚ :=
  match vs with
  | [] => []
  | v :: _ => expMaxAux v vs

/-- The `Drawdown` column: `(value - peak) / peak`, elementwise, each
division unguarded. -/
def zipDivE : List ℚ → List ℚ → Except MErr (List ℚ)
  | v :: vs, p :: ps =>
    match divE (v - p) p with
    | Except.error e => Except.error e
    | Except.ok d =>
      match zipDivE vs ps with
      | Except.error e => Except.error e
      | Except.ok l => Except.ok (d :: l)
  | _, _ => Except.ok []

/-- `Series.min()` over a nonempty column. -/
def minD (l : List ℚ) : ℚ :=
  l.foldl min (l.headD 0)

/-- The `for i in range(0, len(self.trades) - 1, 2)` loop: the number of
(Buy, Sell) pairs with `sell_trade['Proceeds'] > buy_trade['Cost']`. -/
def winPairs : List Trade → ℕ
  | t1 :: t2 :: rest => (if t1.amount < t2.amount then 1 else 0) + winPairs rest
  | _ => 0

/-- The result record assembled by `_calculate_performance_metrics`.
`volatilitySq` is the square of the annualized volatility (`none` models the
`NaN` produced with fewer than two daily returns); `sharpeIsZero` records
whether the `if volatility > 0 else 0` guard took its fallback — when it did
not, the (irrational) ratio equals `totalReturnPct / 100` divided by the
square root of `volatilitySq`, so the stored fields determine it. -/
structure Metrics where
  finalValue : ℚ
  totalReturnPct : ℚ
  buyHoldReturnPct : ℚ
  buyHoldFinalValue : ℚ
  excessReturnPct : ℚ
  volatilitySq : Option ℚ
  sharpeIsZero : Bool
  maxDrawdownPct : ℚ
  totalTrades : ℕ
  tradePairs : ℕ
  winRatePct : ℚ
deriving DecidableEq

/-- `Backtest._calculate_performance_metrics` from `backtest.py`:
`.ok none` models the early `return {}` on an empty snapshot list;
`.error` marks an unguarded division by zero (or an empty `iloc` lookup)
encountered in source order. -/
def calcMetrics (capital : ℚ) (snaps : List Snapshot) (trades : List Trade)
    (prices : List ℚ) : Except MErr (Option Metrics) :=
  if snaps.isEmpty then Except.ok none
  else
    let values := snaps.map Snapshot.portfolioValue
    let finalValue := values.getLastD 0
    match divE (finalValue - capital) capital with
    | Except.error e => Except.error e
    | Except.ok totalReturn =>
      match ilocE prices.head? with
      | Except.error e => Except.error e
      | Except.ok startPrice =>
        match ilocE prices.getLast? with
        | Except.error e => Except.error e
        | Except.ok endPrice =>
          match divE (endPrice - startPrice) startPrice with
          | Except.error e => Except.error e
          | Except.ok buyHoldReturn =>
            match pctChange values with
            | Except.error e => Except.error e
            | Except.ok dailyReturns =>
              let volSq := (sampleVariance dailyReturns).map fun v => v * 252
              match zipDivE values (expandingMax values) with
              | Except.error e => Except.error e
              | Except.ok ddowns =>
                let pairs := trades.length / 2
                let winRate : ℚ :=
                  if 0 < pairs then (winPairs trades : ℚ) / (pairs : ℚ) else 0
                Except.ok (some
                  { finalValue := finalValue
                    totalReturnPct := totalReturn * 100
                    buyHoldReturnPct := buyHoldReturn * 100
                    buyHoldFinalValue := capital * (1 + buyHoldReturn)
                    excessReturnPct := (totalReturn - buyHoldReturn) * 100
                    volatilitySq := volSq
                    sharpeIsZero :=
                      match volSq with
                      | some v => decide (v ≤ 0)
                      | none => true
                    maxDrawdownPct := minD ddowns * 100
                    totalTrades := trades.length
                    tradePairs := pairs
                    winRatePct := winRate * 100 })

/-- The end-to-end scenario frame of the spec: three periods at price 100
with signals Hold, Buy, Sell (the `Position` column as `generate_signals`
would fill it). -/
def demoRows : List Row :=
  [{ price := 100, signal := 0, position := 0 },
   { price := 100, signal := 1, position := 1 },
   { price := 100, signal := -1, position := 0 }]

/-! ### Supporting lemmas -/

lemma take_sum_range (ps : List ℚ) :
    ∀ w : ℕ, w ≤ ps.length →
      (ps.take w).sum = ∑ k ∈ Finset.range w, ps.getD k 0 := by
  intro w hw
  induction w with
  | zero => simp
  | succ n ih =>
    have hn : n < ps.length := by omega
    rw [Finset.sum_range_succ, ← ih (by omega), List.take_succ, List.sum_append]
    congr 1
    rw [List.getElem?_eq_getElem hn]
    simp [List.getD_eq_getElem?_getD, List.getElem?_eq_getElem hn]

lemma drop_take_sum (ps : List ℚ) (a w : ℕ) (h : a + w ≤ ps.length) :
    ((ps.drop a).take w).sum = ∑ k ∈ Finset.range w, ps.getD (a + k) 0 := by
  rw [take_sum_range (ps.drop a) w (by simp; omega)]
  refine Finset.sum_congr rfl fun k hk => ?_
  have hk' : k < w := Finset.mem_range.mp hk
  simp [List.getD_eq_getElem?_getD, List.getElem?_drop]

/-! ### C7: rolling-mean definedness and value -/

/-- C7.  For every positive window size `w` and every price series, the
moving average is defined at index `i` exactly when `i + 1 ≥ w` (starting at
index `w - 1` and nowhere earlier), and where defined it equals the
arithmetic mean of the trailing `w` prices ending at `i`. -/
theorem rollingMean_defined_iff_and_value (w : ℕ) (ps : List ℚ) (i : ℕ)
    (hw : 0 < w) (hi : i < ps.length) :
    ((rollingMean w ps i).isSome ↔ w ≤ i + 1) ∧
    ∀ q, rollingMean w ps i = some q ↔
      w ≤ i + 1 ∧ q = (∑ k ∈ Finset.range w, ps.getD (i + 1 - w + k) 0) / (w : ℚ) := by
  by_cases h : w ≤ i + 1
  · have hcond : 0 < w ∧ w ≤ i + 1 ∧ i < ps.length := ⟨hw, h, hi⟩
    have hval : rollingMean w ps i =
        some (((ps.drop (i + 1 - w)).take w).sum / (w : ℚ)) := by
      rw [rollingMean, if_pos hcond]
    have hsum : ((ps.drop (i + 1 - w)).take w).sum =
        ∑ k ∈ Finset.range w, ps.getD (i + 1 - w + k) 0 :=
      drop_take_sum ps (i + 1 - w) w (by omega)
    constructor
    · simp [hval, h]
    · intro q
      rw [hval]
      constructor
      · intro hq
        refine ⟨h, ?_⟩
        rw [← hsum]
        exact (Option.some_injective ℚ hq).symm
      · rintro ⟨-, rfl⟩
        rw [hsum]
  · have hcond : ¬(0 < w ∧ w ≤ i + 1 ∧ i < ps.length) := fun hc => h hc.2.1
    have hval : rollingMean w ps i = none := by rw [rollingMean, if_neg hcond]
    constructor
    · simp [hval, h]
    · intro q
      simp [hval, h]

/-- Witness for C7 at a concrete input: window 2 over `[1, 2, 4]` at
index 2 is defined and equals the mean `3` of the trailing two prices. -/
theorem rollingMean_defined_iff_and_value_witness :
    ((rollingMean 2 [1, 2, 4] 2).isSome ↔ 2 ≤ 2 + 1) ∧
    (∀ q, rollingMean 2 [1, 2, 4] 2 = some q ↔
      2 ≤ 2 + 1 ∧
        q = (∑ k ∈ Finset.range 2, List.getD [1, 2, 4] (2 + 1 - 2 + k) 0) / (2 : ℚ)) ∧
    rollingMean 2 [1, 2, 4] 2 = some 3 := by
  have h := rollingMean_defined_iff_and_value 2 [1, 2, 4] 2 (by norm_num) (by norm_num)
  refine ⟨h.1, h.2, ?_⟩
  rw [h.2 3]
  norm_num [Finset.sum_range_succ]

/-! ### C1: crossover signal characterisation -/

lemma prevValid_some_iff (f : ℕ → Bool) :
    ∀ i j : ℕ, prevValid f i = some j ↔
      j < i ∧ f j = true ∧ ∀ k, j < k → k < i → f k = false := by
  intro i
  induction i with
  | zero => intro j; simp [prevValid]
  | succ n ih =>
    intro j
    cases hn : f n with
    | false =>
      rw [prevValid, if_neg (by simp [hn]), ih j]
      constructor
      · rintro ⟨hj, hfj, hno⟩
        refine ⟨by omega, hfj, fun k h1 h2 => ?_⟩
        rcases Nat.lt_succ_iff_lt_or_eq.mp h2 with h | rfl
        · exact hno k h1 h
        · exact hn
      · rintro ⟨hj, hfj, hno⟩
        have hj' : j < n := by
          rcases Nat.lt_succ_iff_lt_or_eq.mp hj with h | rfl
          · exact h
          · rw [hfj] at hn; cases hn
        exact ⟨hj', hfj, fun k h1 h2 => hno k h1 (by omega)⟩
    | true =>
      rw [prevValid, if_pos hn]
      constructor
      · intro h
        injection h with h
        subst h
        exact ⟨by omega, hn, fun k h1 h2 => by omega⟩
      · rintro ⟨hj, hfj, hno⟩
        have hjn : j = n := by
          by_contra hne
          have hjn' : j < n := by omega
          have := hno n hjn' (Nat.lt_succ_self n)
          rw [hn] at this
          cases this
        subst hjn
        rfl

/-- C1.  The detector's output at index `i` is `1` (Buy) exactly when both
moving averages are defined at `i` and at the previous defined index `j`
with `prev.short ≤ prev.long` and `curr.short > curr.long`; it is `-1`
(Sell) exactly under the symmetric condition with `curr.short < curr.long`;
it is `0` (Hold) whenever the moving averages are not both defined at `i`,
and whenever the current short and long means are equal; and it takes no
value other than these three. -/
theorem crossSignal_spec (s l : ℕ) (ps : List ℚ) (i : ℕ) :
    (crossSignal s l ps i = 1 ↔
      ∃ j currS currL prevS prevL, j < i ∧
        rollingMean s ps i = some currS ∧ rollingMean l ps i = some currL ∧
        rollingMean s ps j = some prevS ∧ rollingMean l ps j = some prevL ∧
        (∀ k, j < k → k < i → bothDefined s l ps k = false) ∧
        prevS ≤ prevL ∧ currL < currS) ∧
    (crossSignal s l ps i = -1 ↔
      ∃ j currS currL prevS prevL, j < i ∧
        rollingMean s ps i = some currS ∧ rollingMean l ps i = some currL ∧
        rollingMean s ps j = some prevS ∧ rollingMean l ps j = some prevL ∧
        (∀ k, j < k → k < i → bothDefined s l ps k = false) ∧
        prevL ≤ prevS ∧ currS < currL) ∧
    (bothDefined s l ps i = false → crossSignal s l ps i = 0) ∧
    (∀ q, rollingMean s ps i = some q → rollingMean l ps i = some q →
      crossSignal s l ps i = 0) ∧
    (crossSignal s l ps i = 0 ∨ crossSignal s l ps i = 1 ∨
      crossSignal s l ps i = -1) := by
  cases hdef : bothDefined s l ps i with
  | false =>
    have h0 : crossSignal s l ps i = 0 := by
      simp [crossSignal, hdef]
    have hnot : ∀ cS cL : ℚ, rollingMean s ps i = some cS →
        rollingMean l ps i = some cL → False := by
      intro cS cL hcs hcl
      rw [bothDefined, hcs, hcl] at hdef
      simp at hdef
    refine ⟨?_, ?_, fun _ => h0, fun q hs hl => (hnot q q hs hl).elim, Or.inl h0⟩
    · refine iff_of_false (fun h => absurd (h0.symm.trans h) (by decide)) ?_
      rintro ⟨j, cS, cL, pS, pL, hj, hcs, hcl, -, -, -, -, -⟩
      exact hnot cS cL hcs hcl
    · refine iff_of_false (fun h => absurd (h0.symm.trans h) (by decide)) ?_
      rintro ⟨j, cS, cL, pS, pL, hj, hcs, hcl, -, -, -, -, -⟩
      exact hnot cS cL hcs hcl
  | true =>
    have hd : (rollingMean s ps i).isSome = true ∧
        (rollingMean l ps i).isSome = true := by
      have h := hdef
      rwa [bothDefined, Bool.and_eq_true] at h
    obtain ⟨currS, hcs⟩ := Option.isSome_iff_exists.mp hd.1
    obtain ⟨currL, hcl⟩ := Option.isSome_iff_exists.mp hd.2
    cases hprev : prevValid (bothDefined s l ps) i with
    | none =>
      have h0 : crossSignal s l ps i = 0 := by
        simp [crossSignal, hdef, hprev]
      have hnone : ∀ (j : ℕ) (pS pL : ℚ), j < i →
          rollingMean s ps j = some pS → rollingMean l ps j = some pL →
          (∀ k, j < k → k < i → bothDefined s l ps k = false) → False := by
        intro j pS pL hj hps hpl hno
        have hsome : prevValid (bothDefined s l ps) i = some j :=
          (prevValid_some_iff (bothDefined s l ps) i j).mpr
            ⟨hj, by rw [bothDefined, hps, hpl]; rfl, hno⟩
        rw [hprev] at hsome
        cases hsome
      refine ⟨?_, ?_, ?_, fun _ _ _ => h0, Or.inl h0⟩
      · refine iff_of_false (fun h => absurd (h0.symm.trans h) (by decide)) ?_
        rintro ⟨j, cS, cL, pS, pL, hj, -, -, hps, hpl, hno, -, -⟩
        exact hnone j pS pL hj hps hpl hno
      · refine iff_of_false (fun h => absurd (h0.symm.trans h) (by decide)) ?_
        rintro ⟨j, cS, cL, pS, pL, hj, -, -, hps, hpl, hno, -, -⟩
        exact hnone j pS pL hj hps hpl hno
      · exact fun h => absurd h (by decide)
    | some j =>
      obtain ⟨hj, hdefj, hno⟩ :=
        (prevValid_some_iff (bothDefined s l ps) i j).mp hprev
      have hdj : (rollingMean s ps j).isSome = true ∧
          (rollingMean l ps j).isSome = true := by
        have h := hdefj
        rwa [bothDefined, Bool.and_eq_true] at h
      obtain ⟨prevS, hps⟩ := Option.isSome_iff_exists.mp hdj.1
      obtain ⟨prevL, hpl⟩ := Option.isSome_iff_exists.mp hdj.2
      have hval : crossSignal s l ps i =
          (if prevS ≤ prevL ∧ currL < currS then 1
           else if prevL ≤ prevS ∧ currS < currL then -1 else 0) := by
        simp only [crossSignal, hdef, hprev, hcs, hcl, hps, hpl,
          Option.getD_some, eq_self_iff_true, if_true]
      have huniq : ∀ j' pS pL, j' < i →
          rollingMean s ps j' = some pS → rollingMean l ps j' = some pL →
          (∀ k, j' < k → k < i → bothDefined s l ps k = false) →
          j' = j ∧ pS = prevS ∧ pL = prevL := by
        intro j' pS pL hj' hps' hpl' hno'
        have : prevValid (bothDefined s l ps) i = some j' := by
          rw [prevValid_some_iff]
          exact ⟨hj', by rw [bothDefined, hps', hpl']; rfl, hno'⟩
        rw [hprev] at this
        injection this with hjj
        subst hjj
        rw [hps] at hps'
        rw [hpl] at hpl'
        exact ⟨rfl, (Option.some_injective ℚ hps').symm,
          (Option.some_injective ℚ hpl').symm⟩
      refine ⟨?_, ?_, ?_, ?_, ?_⟩
      · constructor
        · intro h1
          rw [hval] at h1
          by_cases hbuy : prevS ≤ prevL ∧ currL < currS
          · exact ⟨j, currS, currL, prevS, prevL, hj, hcs, hcl, hps, hpl,
              hno, hbuy.1, hbuy.2⟩
          · rw [if_neg hbuy] at h1
            by_cases hsell : prevL ≤ prevS ∧ currS < currL
            · rw [if_pos hsell] at h1
              exact absurd h1 (by decide)
            · rw [if_neg hsell] at h1
              exact absurd h1 (by decide)
        · rintro ⟨j', cS, cL, pS, pL, hj', hcs', hcl', hps', hpl', hno', hle, hlt⟩
          rw [hcs] at hcs'
          rw [hcl] at hcl'
          have hceS := Option.some_injective ℚ hcs'
          have hceL := Option.some_injective ℚ hcl'
          obtain ⟨-, hpeS, hpeL⟩ := huniq j' pS pL hj' hps' hpl' hno'
          rw [hpeS, hpeL] at hle
          rw [← hceS, ← hceL] at hlt
          rw [hval, if_pos ⟨hle, hlt⟩]
      · constructor
        · intro h1
          rw [hval] at h1
          by_cases hbuy : prevS ≤ prevL ∧ currL < currS
          · rw [if_pos hbuy] at h1
            exact absurd h1 (by decide)
          · rw [if_neg hbuy] at h1
            by_cases hsell : prevL ≤ prevS ∧ currS < currL
            · exact ⟨j, currS, currL, prevS, prevL, hj, hcs, hcl, hps, hpl,
                hno, hsell.1, hsell.2⟩
            · rw [if_neg hsell] at h1
              exact absurd h1 (by decide)
        · rintro ⟨j', cS, cL, pS, pL, hj', hcs', hcl', hps', hpl', hno', hle, hlt⟩
          rw [hcs] at hcs'
          rw [hcl] at hcl'
          have hceS := Option.some_injective ℚ hcs'
          have hceL := Option.some_injective ℚ hcl'
          obtain ⟨-, hpeS, hpeL⟩ := huniq j' pS pL hj' hps' hpl' hno'
          rw [hpeS, hpeL] at hle
          rw [← hceS, ← hceL] at hlt
          have hnb : ¬(prevS ≤ prevL ∧ currL < currS) := by
            rintro ⟨-, h⟩
            exact absurd hlt (not_lt.mpr h.le)
          rw [hval, if_neg hnb, if_pos ⟨hle, hlt⟩]
      · exact fun h => absurd h (by decide)
      · intro q hsq hlq
        rw [hcs] at hsq
        rw [hcl] at hlq
        have heq : currS = currL :=
          (Option.some_injective ℚ hsq).trans (Option.some_injective ℚ hlq).symm
        rw [hval]
        have h1 : ¬(prevS ≤ prevL ∧ currL < currS) := by
          rintro ⟨-, h⟩
          rw [heq] at h
          exact lt_irrefl _ h
        have h2 : ¬(prevL ≤ prevS ∧ currS < currL) := by
          rintro ⟨-, h⟩
          rw [heq] at h
          exact lt_irrefl _ h
        rw [if_neg h1, if_neg h2]
      · rw [hval]
        by_cases h1 : prevS ≤ prevL ∧ currL < currS
        · rw [if_pos h1]
          exact Or.inr (Or.inl rfl)
        · rw [if_neg h1]
          by_cases h2 : prevL ≤ prevS ∧ currS < currL
          · rw [if_pos h2]
            exact Or.inr (Or.inr rfl)
          · rw [if_neg h2]
            exact Or.inl rfl

/-! ### Simulator stepping and invariants -/

lemma btRunAux_take_succ (r : ℚ) :
    ∀ (n : ℕ) (rows : List Row) (st : BTState) (i : ℕ), n < rows.length →
      btRunAux r st i (rows.take (n + 1)) =
        btStep r (btRunAux r st i (rows.take n)) (i + n) (rows.getD n default) := by
  intro n
  induction n with
  | zero =>
    intro rows st i h
    cases rows with
    | nil => simp at h
    | cons a t => simp [btRunAux]
  | succ n ih =>
    intro rows st i h
    cases rows with
    | nil => simp at h
    | cons a t =>
      rw [List.take_succ_cons, List.take_succ_cons]
      rw [btRunAux, btRunAux]
      rw [ih t (btStep r st i a) (i + 1) (by simpa using h)]
      congr 1
      omega

lemma btStateAt_succ (c r : ℚ) (rows : List Row) (n : ℕ) (h : n < rows.length) :
    btStateAt c r rows (n + 1) =
      btStep r (btStateAt c r rows n) n (rows.getD n default) := by
  unfold btStateAt btRun
  rw [btRunAux_take_succ r n rows (initState c) 0 h]
  congr 1
  omega

lemma btRunAux_rec {P : BTState → Prop} (r : ℚ) :
    ∀ (rows : List Row) (st : BTState) (i : ℕ),
      P st → (∀ st' j row, row ∈ rows → P st' → P (btStep r st' j row)) →
      P (btRunAux r st i rows) := by
  intro rows
  induction rows with
  | nil => intro st i h _; exact h
  | cons a t ih =>
    intro st i h hstep
    exact ih _ _ (hstep st i a (List.mem_cons_self a t) h)
      fun st' j row hm => hstep st' j row (List.mem_cons_of_mem a hm)

lemma pyInt_eq_floor (q : ℚ) (h : 0 ≤ q) : pyInt q = ⌊q⌋ := by
  rw [pyInt, if_pos h]

/-- Preservation of nonnegative cash together with positive portfolio
value: cash stays nonnegative and, after every step at a positive price,
cash is positive or shares are held. -/
lemma btStep_preserves_pos (r : ℚ) (st : BTState) (i : ℕ) (row : Row)
    (hr0 : 0 ≤ r) (hr1 : r < 1) (hp : 0 < row.price)
    (h : 0 ≤ st.cash ∧ (0 < st.cash ∨ 0 < st.shares)) :
    0 ≤ (btStep r st i row).cash ∧
      (0 < (btStep r st i row).cash ∨ 0 < (btStep r st i row).shares) := by
  obtain ⟨hc, hpos⟩ := h
  rw [btStep]
  by_cases h1 : row.signal = 1 ∧ st.shares = 0
  · rw [if_pos h1]
    have havail : 0 ≤ st.cash - st.cash * r := by nlinarith
    have hdiv : 0 ≤ (st.cash - st.cash * r) / row.price := by positivity
    by_cases h2 : 0 < pyInt ((st.cash - st.cash * r) / row.price)
    · simp only [if_pos h2]
      have hfl : pyInt ((st.cash - st.cash * r) / row.price) =
          ⌊(st.cash - st.cash * r) / row.price⌋ := pyInt_eq_floor _ hdiv
      have hle : (⌊(st.cash - st.cash * r) / row.price⌋ : ℚ) ≤
          (st.cash - st.cash * r) / row.price := Int.floor_le _
      have hcash : 0 ≤ st.cash -
          ((pyInt ((st.cash - st.cash * r) / row.price) : ℚ) * row.price +
            st.cash * r) := by
        rw [hfl]
        have := (le_div_iff₀ hp).mp hle
        nlinarith
      exact ⟨hcash, Or.inr (by omega)⟩
    · simp only [if_neg h2]
      exact ⟨hc, hpos⟩
  · rw [if_neg h1]
    by_cases h2 : row.signal = -1 ∧ 0 < st.shares
    · simp only [if_pos h2]
      have hsh : (0 : ℚ) < (st.shares : ℚ) := by
        exact_mod_cast h2.2
      have hpr : 0 < (st.shares : ℚ) * row.price * (1 - r) :=
        mul_pos (mul_pos hsh hp) (by linarith)
      exact ⟨by nlinarith [hpr], Or.inl (by nlinarith [hpr])⟩
    · rw [if_neg h2]
      exact ⟨hc, hpos⟩

lemma btStep_cash_nonneg (r : ℚ) (st : BTState) (i : ℕ) (row : Row)
    (hr0 : 0 ≤ r) (hr1 : r < 1) (hp : 0 < row.price) (h : 0 ≤ st.cash) :
    0 ≤ (btStep r st i row).cash := by
  rw [btStep]
  by_cases h1 : row.signal = 1 ∧ st.shares = 0
  · rw [if_pos h1]
    have havail : 0 ≤ st.cash - st.cash * r := by nlinarith
    have hdiv : 0 ≤ (st.cash - st.cash * r) / row.price := by positivity
    by_cases h2 : 0 < pyInt ((st.cash - st.cash * r) / row.price)
    · simp only [if_pos h2]
      have hfl : pyInt ((st.cash - st.cash * r) / row.price) =
          ⌊(st.cash - st.cash * r) / row.price⌋ := pyInt_eq_floor _ hdiv
      rw [hfl]
      have hle : (⌊(st.cash - st.cash * r) / row.price⌋ : ℚ) ≤
          (st.cash - st.cash * r) / row.price := Int.floor_le _
      have := (le_div_iff₀ hp).mp hle
      nlinarith
    · simp only [if_neg h2]
      exact h
  · rw [if_neg h1]
    by_cases h2 : row.signal = -1 ∧ 0 < st.shares
    · simp only [if_pos h2]
      have hsh : (0 : ℚ) ≤ (st.shares : ℚ) := by positivity
      have hpr : 0 ≤ (st.shares : ℚ) * row.price * (1 - r) :=
        mul_nonneg (mul_nonneg hsh hp.le) (by linarith)
      nlinarith [hpr]
    · rw [if_neg h2]
      exact h

/-- The alternation invariant: trade `k` of the log is a Buy for even `k`
and a Sell for odd `k`, and an odd log length is equivalent to holding
shares. -/
def AltInv (st : BTState) : Prop :=
  (∀ k, k < st.trades.length →
    (st.trades.getD k default).action =
      (if k % 2 = 0 then Action.buy else Action.sell)) ∧
  (st.trades.length % 2 = 1 ↔ 0 < st.shares)

lemma btStep_preserves_alt (r : ℚ) (st : BTState) (i : ℕ) (row : Row)
    (h : AltInv st) : AltInv (btStep r st i row) := by
  obtain ⟨halt, hpar⟩ := h
  rw [btStep]
  by_cases h1 : row.signal = 1 ∧ st.shares = 0
  · rw [if_pos h1]
    by_cases h2 : 0 < pyInt ((st.cash - st.cash * r) / row.price)
    · simp only [if_pos h2]
      have hpar0 : st.trades.length % 2 = 0 := by
        rcases Nat.mod_two_eq_zero_or_one st.trades.length with h | h
        · exact h
        · exact absurd (hpar.mp h) (by omega)
      constructor
      · intro k hk
        rw [List.length_append, List.length_singleton] at hk
        by_cases hklt : k < st.trades.length
        · rw [List.getD_append _ _ _ _ hklt]
          exact halt k hklt
        · have hkeq : k = st.trades.length := by omega
          subst hkeq
          rw [List.getD_append_right _ _ _ _ (le_refl _)]
          simp [hpar0]
      · simp only [List.length_append, List.length_singleton]
        constructor
        · intro _
          omega
        · intro _
          omega
    · simp only [if_neg h2]
      exact ⟨halt, hpar⟩
  · rw [if_neg h1]
    by_cases h2 : row.signal = -1 ∧ 0 < st.shares
    · simp only [if_pos h2]
      have hpar1 : st.trades.length % 2 = 1 := hpar.mpr h2.2
      constructor
      · intro k hk
        rw [List.length_append, List.length_singleton] at hk
        by_cases hklt : k < st.trades.length
        · rw [List.getD_append _ _ _ _ hklt]
          exact halt k hklt
        · have hkeq : k = st.trades.length := by omega
          subst hkeq
          rw [List.getD_append_right _ _ _ _ (le_refl _)]
          simp [hpar1]
      · simp only [List.length_append, List.length_singleton]
        constructor
        · intro h
          omega
        · intro h
          omega
    · rw [if_neg h2]
      exact ⟨halt, hpar⟩

/-! ### C5: position gating and strict Buy/Sell alternation -/

/-- C5.  In every run the executed trade log strictly alternates starting
with a Buy (trade `k` is a Buy iff `k` is even); a step appends a Buy trade
only when the state holds no shares and the signal is Buy, and a Sell trade
only when shares are held and the signal is Sell; and a Buy signal while
holding shares or a Sell signal while flat leaves cash, shares and the
trade log completely unchanged. -/
theorem tradeGating_and_alternation (capital r : ℚ) (rows : List Row) :
    (∀ k, k < (btRun capital r rows).trades.length →
      ((btRun capital r rows).trades.getD k default).action =
        (if k % 2 = 0 then Action.buy else Action.sell)) ∧
    (∀ (st : BTState) (i : ℕ) (row : Row) (t : Trade),
      (btStep r st i row).trades = st.trades ++ [t] →
      (t.action = Action.buy → st.shares = 0 ∧ row.signal = 1) ∧
      (t.action = Action.sell → 0 < st.shares ∧ row.signal = -1)) ∧
    (∀ (st : BTState) (i : ℕ) (row : Row),
      (row.signal = 1 ∧ 0 < st.shares) ∨ (row.signal = -1 ∧ st.shares = 0) →
      (btStep r st i row).cash = st.cash ∧
      (btStep r st i row).shares = st.shares ∧
      (btStep r st i row).trades = st.trades) := by
  refine ⟨?_, ?_, ?_⟩
  · have hinv : AltInv (btRun capital r rows) := by
      apply btRunAux_rec
      · exact ⟨fun k hk => by simp [initState] at hk, by simp [initState]⟩
      · exact fun st' j row _ h => btStep_preserves_alt r st' j row h
    exact hinv.1
  · intro st i row t hap
    have hlen : st.trades.length < (st.trades ++ [t]).length := by simp
    rw [btStep] at hap
    by_cases h1 : row.signal = 1 ∧ st.shares = 0
    · rw [if_pos h1] at hap
      by_cases h2 : 0 < pyInt ((st.cash - st.cash * r) / row.price)
      · simp only [if_pos h2] at hap
        have ht := List.append_inj_right hap (by rfl)
        injection ht with hte _
        constructor
        · intro _
          exact ⟨h1.2, h1.1⟩
        · intro hact
          rw [← hte] at hact
          exact Action.noConfusion hact
      · simp only [if_neg h2] at hap
        exact absurd (congrArg List.length hap) (by simp)
    · rw [if_neg h1] at hap
      by_cases h2 : row.signal = -1 ∧ 0 < st.shares
      · simp only [if_pos h2] at hap
        have ht := List.append_inj_right hap (by rfl)
        injection ht with hte _
        constructor
        · intro hact
          rw [← hte] at hact
          exact Action.noConfusion hact
        · intro _
          exact ⟨h2.2, h2.1⟩
      · rw [if_neg h2] at hap
        exact absurd (congrArg List.length hap) (by simp)
  · intro st i row hcase
    have h1 : ¬(row.signal = 1 ∧ st.shares = 0) := by
      rcases hcase with ⟨-, h⟩ | ⟨h, -⟩
      · rintro ⟨-, h0⟩
        omega
      · rintro ⟨h1, -⟩
        rw [h] at h1
        cases h1
    have h2 : ¬(row.signal = -1 ∧ 0 < st.shares) := by
      rcases hcase with ⟨h, -⟩ | ⟨-, h⟩
      · rintro ⟨h2, -⟩
        rw [h] at h2
        cases h2
      · rintro ⟨-, h0⟩
        omega
    rw [btStep, if_neg h1, if_neg h2]
    exact ⟨rfl, rfl, rfl⟩

/-- Witness for C5 on the demo run: the first executed trade is a Buy, the
second a Sell, and a Buy signal arriving while invested changes nothing. -/
theorem tradeGating_and_alternation_witness :
    ((btRun 10000 (1 / 1000) demoRows).trades.getD 0 default).action =
      Action.buy ∧
    ((btRun 10000 (1 / 1000) demoRows).trades.getD 1 default).action =
      Action.sell := by
  have h := tradeGating_and_alternation 10000 (1 / 1000) demoRows
  have hlen : (btRun 10000 (1 / 1000) demoRows).trades.length = 2 := by
    norm_num [btRun, btRunAux, btStep, pyInt, demoRows, initState,
      show Int.toNat 99 = 99 from rfl]
  constructor
  · have := h.1 0 (by omega)
    simpa using this
  · have := h.1 1 (by omega)
    simpa using this

/-! ### C4: cash is never negative -/

lemma btStep_snaps_shape (r : ℚ) (st : BTState) (i : ℕ) (row : Row) :
    ∃ sn, (btStep r st i row).snaps = st.snaps ++ [sn] ∧
      sn.cash = (btStep r st i row).cash ∧
      sn.portfolioValue = (btStep r st i row).cash +
        ((btStep r st i row).shares : ℚ) * row.price := by
  rw [btStep]
  by_cases h1 : row.signal = 1 ∧ st.shares = 0
  · rw [if_pos h1]
    by_cases h2 : 0 < pyInt ((st.cash - st.cash * r) / row.price)
    · simp only [if_pos h2]
      exact ⟨_, rfl, rfl, rfl⟩
    · simp only [if_neg h2]
      exact ⟨_, rfl, rfl, rfl⟩
  · rw [if_neg h1]
    by_cases h2 : row.signal = -1 ∧ 0 < st.shares
    · simp only [if_pos h2]
      refine ⟨_, rfl, rfl, ?_⟩
      norm_num
    · rw [if_neg h2]
      exact ⟨_, rfl, rfl, rfl⟩

lemma btStateAt_cash_nonneg (c₀ r : ℚ) (rows : List Row) (n : ℕ)
    (hc : 0 ≤ c₀) (hr0 : 0 ≤ r) (hr1 : r < 1)
    (hp : ∀ row ∈ rows, 0 < row.price) :
    0 ≤ (btStateAt c₀ r rows n).cash := by
  unfold btStateAt btRun
  apply btRunAux_rec (P := fun st => 0 ≤ st.cash)
  · simpa [initState] using hc
  · intro st' j row hm hst
    exact btStep_cash_nonneg r st' j row hr0 hr1
      (hp row (List.take_subset n rows hm)) hst

/-- C4.  With positive initial capital, commission rate in `[0, 1)` and
strictly positive prices, cash is nonnegative after every period of the
simulation, and every recorded snapshot has nonnegative cash. -/
theorem cash_never_negative (c₀ r : ℚ) (rows : List Row)
    (hc : 0 < c₀) (hr0 : 0 ≤ r) (hr1 : r < 1)
    (hp : ∀ row ∈ rows, 0 < row.price) :
    (∀ n, 0 ≤ (btStateAt c₀ r rows n).cash) ∧
    (∀ sn ∈ (btRun c₀ r rows).snaps, 0 ≤ sn.cash) := by
  constructor
  · exact fun n => btStateAt_cash_nonneg c₀ r rows n hc.le hr0 hr1 hp
  · have hinv : 0 ≤ (btRun c₀ r rows).cash ∧
        ∀ sn ∈ (btRun c₀ r rows).snaps, 0 ≤ sn.cash := by
      unfold btRun
      apply btRunAux_rec
        (P := fun st => 0 ≤ st.cash ∧ ∀ sn ∈ st.snaps, 0 ≤ sn.cash)
      · simp [initState, hc.le]
      · intro st' j row hm hst
        have hcash := btStep_cash_nonneg r st' j row hr0 hr1 (hp row hm) hst.1
        obtain ⟨sn, hsn, hsnc, -⟩ := btStep_snaps_shape r st' j row
        refine ⟨hcash, ?_⟩
        rw [hsn]
        intro x hx
        rcases List.mem_append.mp hx with hx | hx
        · exact hst.2 x hx
        · rw [List.mem_singleton.mp hx, hsnc]
          exact hcash
    exact hinv.2

/-- Witness for C4 on the demo run. -/
theorem cash_never_negative_witness :
    (∀ n, 0 ≤ (btStateAt 10000 (1 / 1000) demoRows n).cash) ∧
    (∀ sn ∈ (btRun 10000 (1 / 1000) demoRows).snaps, 0 ≤ sn.cash) :=
  cash_never_negative 10000 (1 / 1000) demoRows (by norm_num) (by norm_num)
    (by norm_num) (by intro row hr; fin_cases hr <;> norm_num [demoRows])

/-! ### C2: the Buy execution path -/

/-- C2.  At a period whose signal is Buy while no shares are held, the step
charges commission `cash × r` on total current cash, buys
`n = ⌊(cash − commission) / price⌋` shares; if `n > 0` it debits
`n × price + commission`, credits the shares and appends the Buy trade
record, and if `n = 0` it records no trade and leaves cash and shares
unchanged. -/
theorem buyPeriodSpec (c₀ r : ℚ) (rows : List Row) (i : ℕ)
    (hc : 0 ≤ c₀) (hr0 : 0 ≤ r) (hr1 : r < 1)
    (hp : ∀ row ∈ rows, 0 < row.price) (hi : i < rows.length)
    (hsig : (rows.getD i default).signal = 1)
    (hsh : (btStateAt c₀ r rows i).shares = 0) :
    ∀ cash price n, cash = (btStateAt c₀ r rows i).cash →
      price = (rows.getD i default).price →
      n = ⌊(cash - cash * r) / price⌋ →
      0 ≤ n ∧
      (0 < n →
        (btStateAt c₀ r rows (i + 1)).cash =
          cash - ((n : ℚ) * price + cash * r) ∧
        (btStateAt c₀ r rows (i + 1)).shares = n.toNat ∧
        (btStateAt c₀ r rows (i + 1)).trades =
          (btStateAt c₀ r rows i).trades ++
            [{ idx := i, action := Action.buy, shares := n.toNat,
               price := price, amount := (n : ℚ) * price,
               commission := cash * r,
               cashAfter := cash - ((n : ℚ) * price + cash * r),
               sharesAfter := n.toNat }]) ∧
      (n = 0 →
        (btStateAt c₀ r rows (i + 1)).cash = cash ∧
        (btStateAt c₀ r rows (i + 1)).shares = 0 ∧
        (btStateAt c₀ r rows (i + 1)).trades =
          (btStateAt c₀ r rows i).trades) := by
  intro cash price n hcash hprice hn
  have hcash0 : 0 ≤ (btStateAt c₀ r rows i).cash :=
    btStateAt_cash_nonneg c₀ r rows i hc hr0 hr1 hp
  have hpr : 0 < (rows.getD i default).price := by
    rw [List.getD_eq_getElem rows default hi]
    exact hp _ (List.getElem_mem hi)
  have havail : 0 ≤ cash - cash * r := by
    rw [hcash]
    nlinarith
  have hdiv : 0 ≤ (cash - cash * r) / price := by
    rw [hprice]
    positivity
  have hpy : pyInt ((cash - cash * r) / price) = n := by
    rw [hn]
    exact pyInt_eq_floor _ hdiv
  have hnn : 0 ≤ n := by
    rw [hn]
    exact Int.floor_nonneg.mpr hdiv
  have hstep : btStateAt c₀ r rows (i + 1) =
      btStep r (btStateAt c₀ r rows i) i (rows.getD i default) :=
    btStateAt_succ c₀ r rows i hi
  rw [hstep, btStep, if_pos ⟨hsig, hsh⟩, ← hcash, ← hprice]
  dsimp only
  rw [hpy]
  refine ⟨hnn, ?_, ?_⟩
  · intro hn0
    rw [if_pos hn0]
    refine ⟨rfl, by simp [hsh], ?_⟩
    simp [hsh]
  · intro hn0
    rw [if_neg (by omega)]
    exact ⟨rfl, hsh, rfl⟩

/-- Witness for C2 on the demo run: at period 1 (signal Buy, flat), 99
shares are bought and 90 in cash remains. -/
theorem buyPeriodSpec_witness :
    (btStateAt 10000 (1 / 1000) demoRows 2).cash = 90 ∧
    (btStateAt 10000 (1 / 1000) demoRows 2).shares = 99 := by
  have hstate1 : btStateAt 10000 (1 / 1000) demoRows 1 =
      { cash := 10000, shares := 0, trades := [],
        snaps := [{ idx := 0, cash := 10000, shares := 0, price := 100,
                    portfolioValue := 10000 }] } := by
    norm_num [btStateAt, btRun, btRunAux, btStep, demoRows, initState]
  have h := buyPeriodSpec 10000 (1 / 1000) demoRows 1 (by norm_num)
    (by norm_num) (by norm_num)
    (by intro row hr; fin_cases hr <;> norm_num [demoRows])
    (by norm_num [demoRows])
    (by norm_num [demoRows]) (by rw [hstate1])
  have h2 := h ((btStateAt 10000 (1 / 1000) demoRows 1).cash)
    ((demoRows.getD 1 default).price) 99 rfl rfl
    (by rw [hstate1]; norm_num [demoRows])
  obtain ⟨-, hpos, -⟩ := h2
  obtain ⟨hcash, hshares, -⟩ := hpos (by norm_num)
  constructor
  · rw [hcash, hstate1]
    norm_num [demoRows]
  · rw [hshares]
    rfl

/-! ### C3: the Sell execution path -/

/-- C3.  At a period whose signal is Sell while shares are held, the step
credits `proceeds − commission` to cash with `proceeds = shares × price` and
`commission = proceeds × r` (commission on sale proceeds), appends the Sell
trade record, and leaves exactly 0 shares. -/
theorem sellPeriodSpec (c₀ r : ℚ) (rows : List Row) (i : ℕ)
    (hi : i < rows.length)
    (hsig : (rows.getD i default).signal = -1)
    (hsh : 0 < (btStateAt c₀ r rows i).shares) :
    ∀ cash price sh, cash = (btStateAt c₀ r rows i).cash →
      price = (rows.getD i default).price →
      sh = (btStateAt c₀ r rows i).shares →
      (btStateAt c₀ r rows (i + 1)).cash =
        cash + ((sh : ℚ) * price - (sh : ℚ) * price * r) ∧
      (btStateAt c₀ r rows (i + 1)).shares = 0 ∧
      (btStateAt c₀ r rows (i + 1)).trades =
        (btStateAt c₀ r rows i).trades ++
          [{ idx := i, action := Action.sell, shares := sh, price := price,
             amount := (sh : ℚ) * price, commission := (sh : ℚ) * price * r,
             cashAfter := cash + ((sh : ℚ) * price - (sh : ℚ) * price * r),
             sharesAfter := 0 }] := by
  intro cash price sh hcash hprice hsheq
  have hstep : btStateAt c₀ r rows (i + 1) =
      btStep r (btStateAt c₀ r rows i) i (rows.getD i default) :=
    btStateAt_succ c₀ r rows i hi
  have hnot1 : ¬((rows.getD i default).signal = 1 ∧
      (btStateAt c₀ r rows i).shares = 0) := by
    rintro ⟨h, -⟩
    rw [hsig] at h
    cases h
  rw [hstep, btStep, if_neg hnot1, if_pos ⟨hsig, hsh⟩, ← hcash, ← hprice,
    ← hsheq]
  exact ⟨rfl, rfl, rfl⟩

/-- Witness for C3 on the demo run: the Sell at period 2 leaves
`90 + 9900 − 9.9 = 9980.1` in cash and 0 shares. -/
theorem sellPeriodSpec_witness :
    (btStateAt 10000 (1 / 1000) demoRows 3).cash = 99801 / 10 ∧
    (btStateAt 10000 (1 / 1000) demoRows 3).shares = 0 := by
  have hstate2 : (btStateAt 10000 (1 / 1000) demoRows 2).cash = 90 ∧
      (btStateAt 10000 (1 / 1000) demoRows 2).shares = 99 := by
    norm_num [btStateAt, btRun, btRunAux, btStep, pyInt, demoRows, initState,
      show Int.toNat 99 = 99 from rfl]
  have h := sellPeriodSpec 10000 (1 / 1000) demoRows 2
    (by norm_num [demoRows]) (by norm_num [demoRows])
    (by rw [hstate2.2]; norm_num)
  have h2 := h ((btStateAt 10000 (1 / 1000) demoRows 2).cash)
    ((demoRows.getD 2 default).price) ((btStateAt 10000 (1 / 1000) demoRows 2).shares)
    rfl rfl rfl
  obtain ⟨hcash, hshares, -⟩ := h2
  constructor
  · rw [hcash, hstate2.1, hstate2.2]
    norm_num [demoRows]
  · exact hshares


/-! ### C6: the end-to-end numeric scenario -/

/-- C6.  On capital 10000, commission 0.001, prices `[100, 100, 100]` and
signals `[Hold, Buy, Sell]`: the Buy charges commission 10 and buys 99
shares at cost 9900 leaving cash 90; the Sell takes proceeds 9900 and
commission 9.9 leaving cash 9980.1; the final portfolio value is 9980.1
with no shares held and the total return is −0.199 %. -/
theorem demoScenario :
    (btRun 10000 (1 / 1000) demoRows).trades =
      [{ idx := 1, action := Action.buy, shares := 99, price := 100,
         amount := 9900, commission := 10, cashAfter := 90,
         sharesAfter := 99 },
       { idx := 2, action := Action.sell, shares := 99, price := 100,
         amount := 9900, commission := 99 / 10, cashAfter := 99801 / 10,
         sharesAfter := 0 }] ∧
    (btRun 10000 (1 / 1000) demoRows).cash = 99801 / 10 ∧
    (btRun 10000 (1 / 1000) demoRows).shares = 0 ∧
    (btRun 10000 (1 / 1000) demoRows).snaps.map Snapshot.portfolioValue =
      [10000, 9990, 99801 / 10] ∧
    ∃ m, calcMetrics 10000 (btRun 10000 (1 / 1000) demoRows).snaps
        (btRun 10000 (1 / 1000) demoRows).trades (demoRows.map Row.price) =
        Except.ok (some m) ∧
      m.finalValue = 99801 / 10 ∧ m.totalReturnPct = -199 / 1000 := by
  have hsnaps : (btRun 10000 (1 / 1000) demoRows).snaps =
      [{ idx := 0, cash := 10000, shares := 0, price := 100,
         portfolioValue := 10000 },
       { idx := 1, cash := 90, shares := 99, price := 100,
         portfolioValue := 9990 },
       { idx := 2, cash := 99801 / 10, shares := 0, price := 100,
         portfolioValue := 99801 / 10 }] := by
    norm_num [btRun, btRunAux, btStep, pyInt, demoRows, initState,
      show Int.toNat 99 = 99 from rfl]
  have htrades : (btRun 10000 (1 / 1000) demoRows).trades =
      [{ idx := 1, action := Action.buy, shares := 99, price := 100,
         amount := 9900, commission := 10, cashAfter := 90,
         sharesAfter := 99 },
       { idx := 2, action := Action.sell, shares := 99, price := 100,
         amount := 9900, commission := 99 / 10, cashAfter := 99801 / 10,
         sharesAfter := 0 }] := by
    norm_num [btRun, btRunAux, btStep, pyInt, demoRows, initState,
      show Int.toNat 99 = 99 from rfl]
  refine ⟨htrades, ?_, ?_, ?_, ?_⟩
  · norm_num [btRun, btRunAux, btStep, pyInt, demoRows, initState,
      show Int.toNat 99 = 99 from rfl]
  · norm_num [btRun, btRunAux, btStep, pyInt, demoRows, initState,
      show Int.toNat 99 = 99 from rfl]
  · rw [hsnaps]
    norm_num
  · rw [hsnaps, htrades]
    norm_num [calcMetrics, pctChange, divE, ilocE, sampleVariance,
      expandingMax, expMaxAux, zipDivE, minD, winPairs, max_def, demoRows]

/-! ### C8: the moving-average calculator performs no window validation -/

/-- Counterexample to C8: with `short = 3 ≥ long = 2` the calculator does
not fail — it returns the two rolling-mean columns. -/
theorem ma_shortGeLong_returns_result :
    calculate_moving_averages [2, 4, 6] 3 2 =
      ([none, none, some 4], [none, some 3, some 5]) := by
  norm_num [calculate_moving_averages, rollingMean, List.range_succ]

/-- C8 amended.  `calculate_moving_averages` never fails: it is total and
returns one MA cell per input row for every window pair, including
`short ≥ long`; the only window check in the repository is
`config.validate_config`, which reports `short ≥ long` by returning `false`
rather than raising an error. -/
theorem ma_no_window_validation (ps : List ℚ) (s l : ℕ)
    (sz lz : ℤ) (cap comm : ℚ) (h : lz ≤ sz) :
    (calculate_moving_averages ps s l).1.length = ps.length ∧
    (calculate_moving_averages ps s l).2.length = ps.length ∧
    validate_config sz lz cap comm = false := by
  refine ⟨by simp [calculate_moving_averages],
    by simp [calculate_moving_averages], ?_⟩
  rw [validate_config, validateConfigErrors, if_pos h]
  simp

/-- Witness for the amended C8 at `short = 3`, `long = 2`. -/
theorem ma_no_window_validation_witness :
    (calculate_moving_averages [1] 3 2).1.length = 1 ∧
    (calculate_moving_averages [1] 3 2).2.length = 1 ∧
    validate_config 3 2 10000 (1 / 1000) = false := by
  have h := ma_no_window_validation [1] 3 2 3 2 10000 (1 / 1000) (by norm_num)
  simpa using h

/-! ### C9: division-by-zero behaviour of the analyzer -/

/-- Counterexample to C9: with initial capital 0 the total-return division
has no zero-guard and divides by zero. -/
theorem metricsDivByZero_cex :
    calcMetrics 0
      [{ idx := 0, cash := 10, shares := 0, price := 5,
         portfolioValue := 10 }] [] [5] = Except.error MErr.divByZero := rfl

lemma btRunAux_snaps_length (r : ℚ) :
    ∀ (rows : List Row) (st : BTState) (i : ℕ),
      (btRunAux r st i rows).snaps.length = st.snaps.length + rows.length := by
  intro rows
  induction rows with
  | nil => intro st i; simp [btRunAux]
  | cons a t ih =>
    intro st i
    rw [btRunAux, ih]
    obtain ⟨sn, hsn, -, -⟩ := btStep_snaps_shape r st i a
    rw [hsn]
    simp
    omega

lemma btRun_value_pos (c₀ r : ℚ) (rows : List Row)
    (hc : 0 < c₀) (hr0 : 0 ≤ r) (hr1 : r < 1)
    (hp : ∀ row ∈ rows, 0 < row.price) :
    ∀ sn ∈ (btRun c₀ r rows).snaps, 0 < sn.portfolioValue := by
  have hinv : (0 ≤ (btRun c₀ r rows).cash ∧
        (0 < (btRun c₀ r rows).cash ∨ 0 < (btRun c₀ r rows).shares)) ∧
      ∀ sn ∈ (btRun c₀ r rows).snaps, 0 < sn.portfolioValue := by
    unfold btRun
    apply btRunAux_rec (P := fun st =>
      (0 ≤ st.cash ∧ (0 < st.cash ∨ 0 < st.shares)) ∧
      ∀ sn ∈ st.snaps, 0 < sn.portfolioValue)
    · exact ⟨⟨hc.le, Or.inl hc⟩, by simp [initState]⟩
    · intro st' j row hm hst
      have hpos := btStep_preserves_pos r st' j row hr0 hr1 (hp row hm) hst.1
      obtain ⟨sn, hsn, -, hsnv⟩ := btStep_snaps_shape r st' j row
      refine ⟨hpos, ?_⟩
      rw [hsn]
      intro x hx
      rcases List.mem_append.mp hx with hx | hx
      · exact hst.2 x hx
      · rw [List.mem_singleton.mp hx, hsnv]
        have hsh : (0 : ℚ) ≤ ((btStep r st' j row).shares : ℚ) := by
          positivity
        rcases hpos.2 with hcpos | hshpos
        · nlinarith [mul_nonneg hsh (hp row hm).le]
        · have : (0 : ℚ) < ((btStep r st' j row).shares : ℚ) := by
            exact_mod_cast hshpos
          nlinarith [mul_pos this (hp row hm), hpos.1]
  exact hinv.2

lemma pctChange_ok (vs : List ℚ) (h : ∀ v ∈ vs, 0 < v) :
    ∃ l, pctChange vs = Except.ok l := by
  induction vs with
  | nil => exact ⟨[], rfl⟩
  | cons a t ih =>
    cases t with
    | nil => exact ⟨[], rfl⟩
    | cons b t2 =>
      have ha : 0 < a := h a (List.mem_cons_self _ _)
      have hdiv : divE b a = Except.ok (b / a) := by
        rw [divE, if_neg ha.ne']
      obtain ⟨l, hl⟩ := ih fun v hv => h v (List.mem_cons_of_mem a hv)
      exact ⟨(b / a - 1) :: l, by rw [pctChange, hdiv, hl]⟩

lemma expMaxAux_pos (m : ℚ) (l : List ℚ) (hm : 0 < m) :
    ∀ x ∈ expMaxAux m l, 0 < x := by
  induction l generalizing m with
  | nil => intro x hx; simp [expMaxAux] at hx
  | cons v t ih =>
    intro x hx
    rw [expMaxAux] at hx
    rcases List.mem_cons.mp hx with rfl | hx
    · exact lt_max_of_lt_left hm
    · exact ih (max m v) (lt_max_of_lt_left hm) x hx

lemma expandingMax_pos (vs : List ℚ) (h : ∀ v ∈ vs, 0 < v) :
    ∀ x ∈ expandingMax vs, 0 < x := by
  cases vs with
  | nil => intro x hx; simp [expandingMax] at hx
  | cons v t =>
    rw [expandingMax]
    exact expMaxAux_pos v (v :: t) (h v (List.mem_cons_self _ _))

lemma zipDivE_ok :
    ∀ (vs ps : List ℚ), (∀ p ∈ ps, p ≠ 0) →
      ∃ l, zipDivE vs ps = Except.ok l := by
  intro vs
  induction vs with
  | nil => intro ps h; cases ps <;> exact ⟨[], rfl⟩
  | cons v vt ih =>
    intro ps h
    cases ps with
    | nil => exact ⟨[], rfl⟩
    | cons p pt =>
      have hp : p ≠ 0 := h p (List.mem_cons_self _ _)
      have hdiv : divE (v - p) p = Except.ok ((v - p) / p) := by
        rw [divE, if_neg hp]
      obtain ⟨l, hl⟩ := ih pt fun x hx => h x (List.mem_cons_of_mem p hx)
      exact ⟨(v - p) / p :: l, by rw [zipDivE, hdiv, hl]⟩

/-- C9 amended.  Only two divisions of the analyzer are guarded: the
risk-adjusted ratio falls back to 0 when volatility is not positive and the
win rate falls back to 0 when there are no trade pairs.  The divisions by
initial capital, first price, prior portfolio value and running peak carry
no zero-check; but on every simulator run satisfying the input contract
(positive capital, commission in `[0, 1)`, nonempty positive price series)
none of their denominators is zero, so the analyzer completes without
dividing by zero. -/
theorem metricsDivisions (c₀ r : ℚ) (rows : List Row)
    (hc : 0 < c₀) (hr0 : 0 ≤ r) (hr1 : r < 1) (hne : rows ≠ [])
    (hp : ∀ row ∈ rows, 0 < row.price) :
    ∃ m, calcMetrics c₀ (btRun c₀ r rows).snaps (btRun c₀ r rows).trades
        (rows.map Row.price) = Except.ok (some m) ∧
      ((∀ v, m.volatilitySq = some v → v ≤ 0) → m.sharpeIsZero = true) ∧
      (m.tradePairs = 0 → m.winRatePct = 0) := by
  have hspos := btRun_value_pos c₀ r rows hc hr0 hr1 hp
  have hslen : (btRun c₀ r rows).snaps.length = rows.length := by
    unfold btRun
    rw [btRunAux_snaps_length]
    simp [initState]
  have hsne : ¬(btRun c₀ r rows).snaps.isEmpty = true := by
    rw [List.isEmpty_iff_length_eq_zero, hslen]
    exact fun h => hne (List.length_eq_zero.mp h)
  have hvpos : ∀ v ∈ (btRun c₀ r rows).snaps.map Snapshot.portfolioValue,
      0 < v := by
    intro v hv
    obtain ⟨sn, hsn, rfl⟩ := List.mem_map.mp hv
    exact hspos sn hsn
  have h1 : divE (((btRun c₀ r rows).snaps.map
        Snapshot.portfolioValue).getLastD 0 - c₀) c₀ =
      Except.ok ((((btRun c₀ r rows).snaps.map
        Snapshot.portfolioValue).getLastD 0 - c₀) / c₀) := by
    rw [divE, if_neg hc.ne']
  obtain ⟨row0, rest, hrows⟩ : ∃ a t, rows = a :: t := by
    cases rows with
    | nil => exact absurd rfl hne
    | cons a t => exact ⟨a, t, rfl⟩
  have hhead : (rows.map Row.price).head? = some row0.price := by
    rw [hrows]
    rfl
  have hheadpos : 0 < row0.price := by
    apply hp
    rw [hrows]
    exact List.mem_cons_self _ _
  have hlastne : rows.map Row.price ≠ [] := by
    rw [hrows]
    simp
  obtain ⟨plast, hlast⟩ :=
    Option.isSome_iff_exists.mp (List.getLast?_isSome.mpr hlastne)
  have hlastpos : 0 < plast := by
    obtain ⟨hne2, heq⟩ :=
      List.mem_getLast?_eq_getLast (Option.mem_def.mpr hlast)
    have hmem : plast ∈ rows.map Row.price := heq ▸ List.getLast_mem hne2
    obtain ⟨rowl, hrl, hrleq⟩ := List.mem_map.mp hmem
    rw [← hrleq]
    exact hp rowl hrl
  have h2 : divE (plast - row0.price) row0.price =
      Except.ok ((plast - row0.price) / row0.price) := by
    rw [divE, if_neg hheadpos.ne']
  obtain ⟨dl, hdl⟩ := pctChange_ok _ hvpos
  obtain ⟨dd, hdd⟩ := zipDivE_ok
    ((btRun c₀ r rows).snaps.map Snapshot.portfolioValue)
    (expandingMax ((btRun c₀ r rows).snaps.map Snapshot.portfolioValue))
    fun p hp' => (expandingMax_pos _ hvpos p hp').ne'
  rw [calcMetrics, if_neg hsne]
  simp only [h1, hhead, hlast, h2, hdl, hdd, ilocE]
  refine ⟨_, rfl, ?_, ?_⟩
  · intro hv
    cases hvs : (sampleVariance dl).map fun v => v * 252 with
    | none => simp [hvs]
    | some v =>
      simp only [hvs]
      simp only [hvs] at hv
      exact decide_eq_true (hv v rfl)
  · intro hpairs
    dsimp only at hpairs ⊢
    rw [hpairs]
    norm_num

/-- Witness for the amended C9 on the demo run. -/
theorem metricsDivisions_witness :
    ∃ m, calcMetrics 10000 (btRun 10000 (1 / 1000) demoRows).snaps
        (btRun 10000 (1 / 1000) demoRows).trades
        (demoRows.map Row.price) = Except.ok (some m) ∧
      ((∀ v, m.volatilitySq = some v → v ≤ 0) → m.sharpeIsZero = true) ∧
      (m.tradePairs = 0 → m.winRatePct = 0) :=
  metricsDivisions 10000 (1 / 1000) demoRows (by norm_num) (by norm_num)
    (by norm_num) (by simp [demoRows])
    (by intro row hr; fin_cases hr <;> norm_num [demoRows])

/-! ### C10: the Position column never influences the backtest -/

lemma btStep_ignores_position (r : ℚ) (st : BTState) (i : ℕ)
    (row₁ row₂ : Row) (hp : row₁.price = row₂.price)
    (hs : row₁.signal = row₂.signal) :
    btStep r st i row₁ = btStep r st i row₂ := by
  cases row₁
  cases row₂
  cases hp
  cases hs
  rfl

lemma btRunAux_ignores_position (r : ℚ) :
    ∀ (rows₁ rows₂ : List Row) (st : BTState) (i : ℕ),
      rows₁.map (fun row => (row.price, row.signal)) =
        rows₂.map (fun row => (row.price, row.signal)) →
      btRunAux r st i rows₁ = btRunAux r st i rows₂ := by
  intro rows₁
  induction rows₁ with
  | nil =>
    intro rows₂ st i h
    cases rows₂ with
    | nil => rfl
    | cons b t => simp at h
  | cons a t ih =>
    intro rows₂ st i h
    cases rows₂ with
    | nil => simp at h
    | cons b t2 =>
      simp only [List.map_cons, List.cons.injEq, Prod.mk.injEq] at h
      rw [btRunAux, btRunAux, btStep_ignores_position r st i a b h.1.1 h.1.2]
      exact ih t2 _ _ h.2

/-- C10.  Two input frames identical except in their `Position` column
produce identical simulator results (cash, shares, trade log, snapshot
sequence) and identical performance metrics: the backtest reads only the
price and `Signal` columns. -/
theorem positionColumnIrrelevant (c₀ r : ℚ) (rows₁ rows₂ : List Row)
    (h : rows₁.map (fun row => (row.price, row.signal)) =
      rows₂.map (fun row => (row.price, row.signal))) :
    btRun c₀ r rows₁ = btRun c₀ r rows₂ ∧
    calcMetrics c₀ (btRun c₀ r rows₁).snaps (btRun c₀ r rows₁).trades
        (rows₁.map Row.price) =
      calcMetrics c₀ (btRun c₀ r rows₂).snaps (btRun c₀ r rows₂).trades
        (rows₂.map Row.price) := by
  have hrun : btRun c₀ r rows₁ = btRun c₀ r rows₂ :=
    btRunAux_ignores_position r rows₁ rows₂ (initState c₀) 0 h
  have hprices : rows₁.map Row.price = rows₂.map Row.price := by
    have := congrArg (List.map Prod.fst) h
    simpa [List.map_map, Function.comp] using this
  rw [hrun, hprices]
  exact ⟨rfl, rfl⟩

/-- Witness for C10: two one-row frames whose `Position` entries differ. -/
theorem positionColumnIrrelevant_witness :
    btRun 10000 (1 / 1000) [{ price := 100, signal := 1, position := 0 }] =
      btRun 10000 (1 / 1000) [{ price := 100, signal := 1, position := 7 }] ∧
    calcMetrics 10000
        (btRun 10000 (1 / 1000)
          [{ price := 100, signal := 1, position := 0 }]).snaps
        (btRun 10000 (1 / 1000)
          [{ price := 100, signal := 1, position := 0 }]).trades
        ([{ price := 100, signal := 1, position := 0 }].map Row.price) =
      calcMetrics 10000
        (btRun 10000 (1 / 1000)
          [{ price := 100, signal := 1, position := 7 }]).snaps
        (btRun 10000 (1 / 1000)
          [{ price := 100, signal := 1, position := 7 }]).trades
        ([{ price := 100, signal := 1, position := 7 }].map Row.price) :=
  positionColumnIrrelevant 10000 (1 / 1000) _ _ rfl

end Trading
